import Mathlib

/-!
Verification of the Red Archive container format implementation
(`src/archive.c`).  The archive is modelled as a list of bytes
(`List Nat`, each element intended `< 256`); file positions are
absolute indices into that list.  `fread` of `n` bytes at position
`p` returns `(s.drop p).take n`, whose length is the byte count the
C call reports.  Machine integers are modelled as `Nat`/`Int` with
explicit `% 256` / `% 2^32` where the C code truncates.  The one
place where `char` signedness matters — the dispatch on
`compression_level` — is modelled with the signed reading used by the
usual targets of this code (x86 Linux/Windows): bytes `128..255` are
negative and fall into the final `else` branch.  Out-of-bounds buffer
accesses (reads or writes past a `malloc`ed buffer) are modelled by
`Option`-returning indexing; any such access makes the whole run
return a distinguished undefined-behaviour marker.
-/

/-- `valid_filename_character` from archive.c lines 20-36.
The `char` argument is signed there, but every comparison in the C
code fails for bytes `128..255` in both the signed and unsigned
readings, so a `Nat` byte model gives identical results. -/
def vchar (c : Nat) : Bool :=
  (36 ≤ c && c ≤ 41) ||
  (48 ≤ c && c ≤ 57) ||
  (64 ≤ c && c ≤ 90) ||
  (94 ≤ c && c ≤ 123) ||
  c == 33 ||
  c == 45 ||
  c == 46 ||
  c == 125 ||
  c == 126

/-- The filename-validation loop of `unpack` (archive.c lines 71-82).
`first` is true exactly when the loop index `i` is `0`; the singleton
pattern corresponds to `i == filename_last_i`.  Returns `true` when the
loop finishes without hitting the failure branch. -/
def vGo : List Nat → Bool → Bool
  | [], _ => true
  | [b], first => !first && b == 0
  | b :: c :: rest, first =>
    if !first && b == 0 then true
    else if vchar b then vGo (c :: rest) false
    else false

/-- Little-endian value of a byte list (how `fread(&x, 4, 1, f)` fills a
`u32` on the little-endian targets this code is built for). -/
def leNat (bs : List Nat) : Nat :=
  bs.foldr (fun b acc => b + 256 * acc) 0

/-- The four-byte little-endian encoding written by `pack`
(archive.c lines 436-439): `(unsigned int) file_size >> 8k & 0xFF`. -/
def toLE4 (n : Nat) : List Nat :=
  [n % 256, n / 256 % 256, n / 65536 % 256, n / 16777216 % 256]

/-- Bit `i` of byte `b`: `(b >> i) & 1` (arithmetic shift on a signed
`char` yields the same low bits for `i < 8`). -/
def bit (b i : Nat) : Nat := b / 2 ^ i % 2

/-- `offset_bits = 6 - compression_level` computed on `unsigned char`
(archive.c line 216): the int result `6 - level` reduced mod 256. -/
def offsetBits (level : Nat) : Nat := ((6 - (level : Int)) % 256).toNat

/-- `max_run_length = (1 << run_length_bits) + 2` (archive.c line 224). -/
def maxRunLength (ob : Nat) : Nat := 2 ^ (8 - ob) + 2

/-- `max_offset = (1 << (offset_bits + 8)) - 1` (archive.c line 225). -/
def maxOffset (ob : Nat) : Nat := 2 ^ (ob + 8) - 1

/-- The two back-reference token loops of `unpack`
(archive.c lines 264-288): `offset` starts at `-1`, `run_length` at `2`,
and one running weight counter `count` is threaded through both 8-bit
loops, reset to `0` when the second loop reaches index `offset_bits`.
Returns `(offset, run_length)`. -/
def decodeToken (ob b1 b2 : Nat) : Int × Nat :=
  let s1 : Int × Nat :=
    (List.range 8).foldl
      (fun p i => (if bit b1 i = 1 then p.1 + 2 ^ p.2 else p.1, p.2 + 1))
      (-1, 0)
  let s2 : Int × Nat × Nat :=
    (List.range 8).foldl
      (fun q i =>
        let c := if i = ob then 0 else q.2.2
        (if bit b2 i = 1 ∧ ¬ ob ≤ i then q.1 + 2 ^ c else q.1,
         if bit b2 i = 1 ∧ ob ≤ i then q.2.1 + 2 ^ c else q.2.1,
         c + 1))
      (s1.1, 2, s1.2)
  (s2.1, s2.2.1)

/-- Write one byte to the `malloc(uncompressed_size)` output buffer at
the current write cursor; `none` models the out-of-bounds write the C
code performs when the cursor has reached the buffer size. -/
def outWrite (out : List Nat) (usize b : Nat) : Option (List Nat) :=
  if out.length < usize then some (out ++ [b]) else none

/-- Write one byte to the `malloc(max_offset)` sliding-window buffer at
index `i`.  The buffer always holds exactly `max_offset` bytes (it is
allocated with that size and writes preserve length), so an index is in
bounds exactly when `i < maxOff`; `none` models the out-of-bounds write
the C code performs at `i = max_offset`. -/
def winWrite (maxOff : Nat) (w : List Nat) (i b : Nat) : Option (List Nat) :=
  if i < maxOff then some (w.set i b) else none

/-- Working state of the windowed decoder (archive.c lines 227-236):
output buffer contents so far (`uncompressed_pointer = out.length`),
sliding-window buffer, `sliding_offset`, `compressed_pointer`. -/
structure WState where
  out : List Nat
  win : List Nat
  so : Nat
  cp : Nat
deriving DecidableEq, Repr

/-- The diagnostic messages the entry loop can print without aborting. -/
inductive Warn where
  | sizeMismatch
  | outputSizeMismatch
  | unsupportedLevel
  | invalidOffset
  | invalidRunLength
  | entrySizeMismatch
deriving DecidableEq, Repr

/-- Result of a type-1 (RLE) decode: the produced bytes, an
out-of-bounds access, or exhausted fuel (never reached with the fuel
`rleDecode` supplies). -/
inductive RRes where
  | ok (out : List Nat)
  | oob
  | outOfFuel
deriving DecidableEq, Repr

/-- The type-1 decompression loop of `unpack` (archive.c lines 163-184).
One fuel unit per iteration of the outer `while`; `cp` is
`compressed_pointer`, `out` the output buffer contents
(`uncompressed_pointer = out.length`). -/
def rleGo (payload : List Nat) (usize : Nat) : Nat → Nat → List Nat → RRes
  | 0, _, _ => .outOfFuel
  | fuel + 1, cp, out =>
    if cp < payload.length then
      match payload.get? cp with
      | none => .oob
      | some flag =>
        if 127 < flag then
          match payload.get? (cp + 1) with
          | none => .oob
          | some b =>
            let count := flag - 125
            if usize < out.length + count then .oob
            else rleGo payload usize fuel (cp + 2) (out ++ List.replicate count b)
        else
          let k := flag + 1
          if payload.length < cp + 1 + k then .oob
          else if usize < out.length + k then .oob
          else rleGo payload usize fuel (cp + 1 + k) (out ++ (payload.drop (cp + 1)).take k)
    else .ok out

/-- Type-1 decode of a whole payload.  The loop consumes at least one
payload byte per iteration, so `payload.length + 1` fuel never runs out. -/
def rleDecode (payload : List Nat) (usize : Nat) : RRes :=
  rleGo payload usize (payload.length + 1) 0 []

/-- Result of the back-reference copy loop (archive.c lines 303-332). -/
inductive RunRes where
  | ok (off : Nat) (st : WState)
  | corrupt (st : WState)
  | oob
deriving DecidableEq, Repr

/-- The `for i < run_length` copy loop of the windowed decoder
(archive.c lines 303-332).  Before each byte: the offset validity check
(line 306, `goto ESCAPE_LOOP` on failure → `corrupt`); then the window
read at `offset` (an out-of-bounds read when `offset = max_offset`,
since the buffer holds `max_offset` bytes); the window write at
`sliding_offset` with wraparound; the output write; and the offset
increment with wraparound. -/
def wRun (maxOff usize : Nat) : Nat → Nat → WState → RunRes
  | 0, off, st => .ok off st
  | n + 1, off, st =>
    if maxOff < off ∨ st.out.length ≤ off then .corrupt st
    else
      match st.win.get? off with
      | none => .oob
      | some byte =>
        match winWrite maxOff st.win st.so byte with
        | none => .oob
        | some win₁ =>
          let so₁ := if st.so < maxOff then st.so + 1 else 0
          match outWrite st.out usize byte with
          | none => .oob
          | some out₁ =>
            let off₁ := if off < maxOff then off + 1 else 0
            wRun maxOff usize n off₁ ⟨out₁, win₁, so₁, st.cp⟩

/-- Result of a windowed decode: normal completion, abort via
`goto ESCAPE_LOOP` with the message printed, an out-of-bounds access,
or exhausted fuel. -/
inductive WRes where
  | ok (st : WState)
  | corrupt (st : WState) (w : Warn)
  | oob
  | outOfFuel
deriving DecidableEq, Repr

/-- The `for bit < 8` loop of the windowed decoder (archive.c lines
243-337), over the list of remaining bit indices.  Flag bit 1: copy one
literal payload byte to output and window.  Flag bit 0: read the
two-byte token, run the validity checks of lines 291-300, then the copy
loop.  After each bit, `break` when `compressed_pointer` has reached
`compressed_size` (the payload length). -/
def wBits (maxOff maxRun usize ob : Nat) (payload : List Nat) (flag : Nat) :
    List Nat → WState → WRes
  | [], st => .ok st
  | b :: bits, st =>
    if bit flag b = 1 then
      match payload.get? st.cp with
      | none => .oob
      | some byte =>
        match outWrite st.out usize byte with
        | none => .oob
        | some out₁ =>
          match winWrite maxOff st.win st.so byte with
          | none => .oob
          | some win₁ =>
            let st₁ : WState := ⟨out₁, win₁, if st.so < maxOff then st.so + 1 else 0, st.cp + 1⟩
            if payload.length ≤ st₁.cp then .ok st₁
            else wBits maxOff maxRun usize ob payload flag bits st₁
    else
      match payload.get? st.cp, payload.get? (st.cp + 1) with
      | some b1, some b2 =>
        let t := decodeToken ob b1 b2
        let st₁ : WState := ⟨st.out, st.win, st.so, st.cp + 2⟩
        if t.1 < 0 then .corrupt st₁ .invalidOffset
        else if maxRun < t.2 then .corrupt st₁ .invalidRunLength
        else
          match wRun maxOff usize t.2 t.1.toNat st₁ with
          | .oob => .oob
          | .corrupt st₂ => .corrupt st₂ .invalidOffset
          | .ok _ st₂ =>
            if payload.length ≤ st₂.cp then .ok st₂
            else wBits maxOff maxRun usize ob payload flag bits st₂
      | _, _ => .oob

/-- The outer `while (compressed_pointer < compressed_size)` loop of the
windowed decoder (archive.c line 238): read the flag byte, then process
its 8 bits. -/
def wOuter (maxOff maxRun usize ob : Nat) (payload : List Nat) : Nat → WState → WRes
  | 0, _ => .outOfFuel
  | fuel + 1, st =>
    if st.cp < payload.length then
      match payload.get? st.cp with
      | none => .oob
      | some flag =>
        match wBits maxOff maxRun usize ob payload flag (List.range 8)
            ⟨st.out, st.win, st.so, st.cp + 1⟩ with
        | .ok st₁ => wOuter maxOff maxRun usize ob payload fuel st₁
        | r => r
    else .ok st

/-- Whole windowed decode of one entry (archive.c lines 214-338):
derive the field widths from the level, allocate the output and window
buffers (uninitialised memory modelled as zero bytes — every cell the
decoder can read before an out-of-bounds marker has already been
written), and run the outer loop with sufficient fuel. -/
def windowDecode (level usize : Nat) (payload : List Nat) : WRes :=
  let ob := offsetBits level
  let maxOff := maxOffset ob
  wOuter maxOff (maxRunLength ob) usize ob payload (payload.length + 1)
    ⟨[], List.replicate maxOff 0, 0, 0⟩

/-- One parsed entry header plus its payload. `level` is the raw byte;
`next` is `ftell`-after-header plus `compressed_size`, the position the
entry loop seeks to afterwards. -/
structure Entry where
  name : List Nat
  csize : Nat
  usize : Nat
  level : Nat
  payload : List Nat
  next : Nat
deriving DecidableEq, Repr

/-- Header-parsing outcome for one iteration of the `unpack` loop. -/
inductive ParseRes where
  | fail
  | eof
  | entry (e : Entry)
deriving DecidableEq, Repr

/-- Header parsing of one `unpack` iteration (archive.c lines 50-126):
read up to 13 filename bytes (zero bytes read → fatal; exactly `[0]` →
end of archive; invalid name → fatal), seek past the terminator, read
the two `u32` sizes and the level byte (short reads fatal), record the
payload start, and read `compressed_size` payload bytes —
`fread(buf, compressed_size, 1, f)` returns 1 only when
`compressed_size` is nonzero and fully read.  All the loop's reads and
seeks touch the stream only through the suffix starting at the entry's
start position, so they are expressed as drops of `s.drop pos`
(a read of `n` bytes at absolute position `pos + k` is
`((s.drop pos).drop k).take n`). -/
def parseEntry (s : List Nat) (pos : Nat) : ParseRes :=
  let d := s.drop pos
  let w := d.take 13
  if w.length = 0 then .fail
  else if w = [0] then .eof
  else if vGo w true = false then .fail
  else
    let name := w.takeWhile (fun b => b != 0)
    let hdr := d.drop (name.length + 1)
    let csB := hdr.take 4
    if csB.length ≠ 4 then .fail
    else
      let usB := (hdr.drop 4).take 4
      if usB.length ≠ 4 then .fail
      else
        match (hdr.drop 8).take 1 with
        | [] => .fail
        | lvl :: _ =>
          let csize := leNat csB
          let payload := (hdr.drop 9).take csize
          if csize = 0 ∨ payload.length ≠ csize then .fail
          else .entry ⟨name, csize, leNat usB, lvl, payload, pos + name.length + 10 + csize⟩

/-- Outcome of `unpack`: `ok`/`err` mirror `return 0` / `return
EXIT_FAILURE`, carrying the files written so far (filename bytes paired
with file contents) and the diagnostics printed; `ub` marks a run that
performed an out-of-bounds buffer access. -/
inductive UResult where
  | ok (files : List (List Nat × List Nat)) (warns : List Warn)
  | err (files : List (List Nat × List Nat)) (warns : List Warn)
  | ub
  | outOfFuel
deriving DecidableEq, Repr

/-- The `while (1)` entry loop of `unpack` (archive.c lines 50-376).
Dispatch on the level byte read into a signed `char`: `0` store, `1`
RLE, `2..127` windowed, `128..255` (negative) the final `else` →
`EXIT_FAILURE`.  In the windowed branch, `offset_bits > 8` skips the
entry with a warning (`continue`; the stream is already past the
payload, which is also where the loop's seek lands).  Decoded output
shorter than `uncompressed_size` is written padded with the
uninitialised (zero) tail of the output buffer, as `fwrite(buf,
uncompressed_size, 1, f)` does; only the level-1 branch checks that
`fwrite` result. -/
def unpackGo (s : List Nat) :
    Nat → Nat → List (List Nat × List Nat) → List Warn → UResult
  | 0, _, _, _ => .outOfFuel
  | fuel + 1, pos, files, warns =>
    match parseEntry s pos with
    | .fail => .err files warns
    | .eof => .ok files warns
    | .entry e =>
      if e.level = 0 then
        let warns := warns ++ if e.csize ≠ e.usize then [Warn.sizeMismatch] else []
        unpackGo s fuel e.next (files ++ [(e.name, e.payload)]) warns
      else if e.level = 1 then
        match rleDecode e.payload e.usize with
        | .oob => .ub
        | .outOfFuel => .outOfFuel
        | .ok out =>
          let warns := warns ++ if out.length ≠ e.usize then [Warn.outputSizeMismatch] else []
          let files := files ++ [(e.name, out ++ List.replicate (e.usize - out.length) 0)]
          if e.usize = 0 then .err files warns
          else unpackGo s fuel e.next files warns
      else if 2 ≤ e.level ∧ e.level ≤ 127 then
        if 8 < offsetBits e.level then
          unpackGo s fuel e.next files (warns ++ [Warn.unsupportedLevel])
        else
          match windowDecode e.level e.usize e.payload with
          | .oob => .ub
          | .outOfFuel => .outOfFuel
          | .ok st =>
            let warns := warns ++
              if st.out.length ≠ e.usize ∨ st.cp ≠ e.csize then [Warn.entrySizeMismatch] else []
            unpackGo s fuel e.next
              (files ++ [(e.name, st.out ++ List.replicate (e.usize - st.out.length) 0)]) warns
          | .corrupt st w =>
            let warns := (warns ++ [w]) ++
              if st.out.length ≠ e.usize ∨ st.cp ≠ e.csize then [Warn.entrySizeMismatch] else []
            unpackGo s fuel e.next
              (files ++ [(e.name, st.out ++ List.replicate (e.usize - st.out.length) 0)]) warns
      else .err files warns

/-- `unpack` on an archive byte list.  Every continuing iteration moves
the position forward by at least 12 bytes and stays within the archive,
so `s.length + 1` fuel never runs out. -/
def unpack (s : List Nat) : UResult :=
  unpackGo s (s.length + 1) 0 [] []

/-- The per-file record `pack` appends (archive.c lines 434-455):
filename bytes, the `0x00` terminator, the file length twice as 4-byte
little-endian, the level byte `0`, then the raw file bytes. -/
def encodeEntry (name data : List Nat) : List Nat :=
  name ++ [0] ++ toLE4 data.length ++ toLE4 data.length ++ [0] ++ data

/-- `pack` over the enumerated regular files of the input directory
(directory enumeration itself is an OS collaborator): append each
file's record, then the single terminating zero byte
(archive.c lines 398-463). -/
def pack : List (List Nat × List Nat) → List Nat
  | [] => [0]
  | e :: rest => encodeEntry e.1 e.2 ++ pack rest

/-- A directory entry the archive format can represent faithfully:
a 1..12-character name over the legal character set, and contents that
are nonempty and fit the `u32` size fields. -/
def validEntry (e : List Nat × List Nat) : Prop :=
  1 ≤ e.1.length ∧ e.1.length ≤ 12 ∧ (∀ c ∈ e.1, vchar c = true) ∧
  0 < e.2.length ∧ e.2.length < 2 ^ 32

/-! ## Helper lemmas -/

theorem leNat_toLE4 (n : Nat) (h : n < 2 ^ 32) : leNat (toLE4 n) = n := by
  simp only [leNat, toLE4, List.foldr]
  omega

theorem length_toLE4 (n : Nat) : (toLE4 n).length = 4 := rfl

theorem encodeEntry_length (name data : List Nat) :
    (encodeEntry name data).length = name.length + 10 + data.length := by
  simp [encodeEntry, toLE4]
  omega

theorem vchar_ne_zero {c : Nat} (h : vchar c = true) : c ≠ 0 := by
  rintro rfl
  exact absurd h (by decide)

theorem vGo_zero_cons (t : List Nat) : vGo (0 :: t) false = true := by
  cases t <;> simp [vGo]

theorem vGo_append_zero_false (name t : List Nat)
    (h : ∀ c ∈ name, vchar c = true) : vGo (name ++ 0 :: t) false = true := by
  induction name with
  | nil => exact vGo_zero_cons t
  | cons a tl ih =>
    have ha : vchar a = true := h a (List.mem_cons_self a tl)
    have ha0 : (a == 0) = false := by
      have := vchar_ne_zero ha
      simp [this]
    have htl : ∀ c ∈ tl, vchar c = true := fun c hc => h c (List.mem_cons_of_mem _ hc)
    cases tl with
    | nil => simpa [vGo, ha0, ha] using vGo_zero_cons t
    | cons d tl' =>
      simp only [List.cons_append] at ih ⊢
      simp [vGo, ha0, ha]
      simpa using ih htl

theorem vGo_append_zero_true (name t : List Nat) (hne : name ≠ [])
    (h : ∀ c ∈ name, vchar c = true) : vGo (name ++ 0 :: t) true = true := by
  match name with
  | a :: tl =>
    have ha : vchar a = true := h a (List.mem_cons_self a tl)
    have htl : ∀ c ∈ tl, vchar c = true := fun c hc => h c (List.mem_cons_of_mem _ hc)
    cases tl with
    | nil => simpa [vGo, ha] using vGo_zero_cons t
    | cons d tl' =>
      simp only [List.cons_append]
      simp [vGo, ha]
      simpa using vGo_append_zero_false (d :: tl') t htl

theorem takeWhile_append_zero (name t : List Nat) (h : ∀ c ∈ name, c ≠ 0) :
    (name ++ 0 :: t).takeWhile (fun b => b != 0) = name := by
  induction name with
  | nil => simp
  | cons a tl ih =>
    have ha : a ≠ 0 := h a (List.mem_cons_self a tl)
    simp [List.takeWhile_cons, ha, ih (fun c hc => h c (List.mem_cons_of_mem _ hc))]

theorem parseEntry_eof (s : List Nat) (pos : Nat) (hs : s.drop pos = [0]) :
    parseEntry s pos = .eof := by
  simp [parseEntry, hs]

theorem parseEntry_encodeEntry (s : List Nat) (pos : Nat) (name data rest : List Nat)
    (hs : s.drop pos = encodeEntry name data ++ rest)
    (h1 : 1 ≤ name.length) (h12 : name.length ≤ 12)
    (hv : ∀ c ∈ name, vchar c = true)
    (hd : 0 < data.length) (hd32 : data.length < 2 ^ 32) :
    parseEntry s pos = .entry ⟨name, data.length, data.length, 0, data,
      pos + name.length + 10 + data.length⟩ := by
  have hne : name ≠ [] := by
    intro h
    simp [h] at h1
  have hs' : s.drop pos = name ++ 0 ::
      (toLE4 data.length ++ toLE4 data.length ++ 0 :: (data ++ rest)) := by
    rw [hs]
    simp [encodeEntry]
  set R : List Nat := toLE4 data.length ++ toLE4 data.length ++ 0 :: (data ++ rest) with hR
  -- the 13-byte read window
  have hwin : (s.drop pos).take 13 = name ++ 0 :: R.take (12 - name.length) := by
    rw [hs', List.take_append_eq_append_take, List.take_of_length_le (by omega)]
    have : 13 - name.length = (12 - name.length) + 1 := by omega
    rw [this, List.take_succ_cons]
  have hwlen : (name ++ 0 :: R.take (12 - name.length)).length ≠ 0 := by
    simp
  have hwone : name ++ 0 :: R.take (12 - name.length) ≠ [0] := by
    intro h
    have := congrArg List.length h
    simp at this
    omega
  have hvGo : vGo (name ++ 0 :: R.take (12 - name.length)) true = true :=
    vGo_append_zero_true name _ hne hv
  have htw : (name ++ 0 :: R.take (12 - name.length)).takeWhile (fun b => b != 0) = name :=
    takeWhile_append_zero name _ (fun c hc => vchar_ne_zero (hv c hc))
  -- the header bytes following the terminator
  have hhdr : (s.drop pos).drop (name.length + 1) = R := by
    have : name ++ 0 :: R = (name ++ [0]) ++ R := by simp
    rw [hs', this, show name.length + 1 = (name ++ [0]).length by simp, List.drop_left]
  have hcsB : R.take 4 = toLE4 data.length := by
    rw [hR, List.append_assoc, List.take_left' (length_toLE4 data.length)]
  have hdrop4 : R.drop 4 = toLE4 data.length ++ 0 :: (data ++ rest) := by
    rw [hR, List.append_assoc, show (4:Nat) = (toLE4 data.length).length from rfl,
      List.drop_left]
  have husB : (R.drop 4).take 4 = toLE4 data.length := by
    rw [hdrop4, List.take_left' (length_toLE4 data.length)]
  have hdrop8 : R.drop 8 = 0 :: (data ++ rest) := by
    have : R.drop 8 = (R.drop 4).drop 4 := by rw [List.drop_drop]
    rw [this, hdrop4, show (4:Nat) = (toLE4 data.length).length from rfl, List.drop_left]
  have hdrop9 : R.drop 9 = data ++ rest := by
    have : R.drop 9 = (R.drop 8).drop 1 := by rw [List.drop_drop]
    rw [this, hdrop8]
    rfl
  have hpay : (R.drop 9).take data.length = data := by
    rw [hdrop9, List.take_left]
  have hle : leNat (toLE4 data.length) = data.length := leNat_toLE4 _ hd32
  simp only [parseEntry, hwin, hwlen, hwone, hvGo, htw, hhdr, hcsB, husB, hdrop8, hle]
  simp [hpay, hd.ne', length_toLE4]

theorem unpackGo_store_step (s : List Nat) (pos fuel : Nat)
    (files : List (List Nat × List Nat)) (warns : List Warn) (e : Entry)
    (hp : parseEntry s pos = .entry e) (h0 : e.level = 0) (hcs : e.csize = e.usize) :
    unpackGo s (fuel + 1) pos files warns =
      unpackGo s fuel e.next (files ++ [(e.name, e.payload)]) warns := by
  simp [unpackGo, hp, h0, hcs]

theorem pack_length_ge (dir : List (List Nat × List Nat)) :
    dir.length ≤ (pack dir).length := by
  induction dir with
  | nil => simp [pack]
  | cons e rest ih =>
    simp only [pack, List.length_append, encodeEntry_length, List.length_cons]
    omega

theorem unpack_pack_go (dir : List (List Nat × List Nat)) :
    ∀ (s : List Nat) (pos fuel : Nat) (files : List (List Nat × List Nat)) (warns : List Warn),
      s.drop pos = pack dir → (∀ e ∈ dir, validEntry e) → dir.length < fuel →
      unpackGo s fuel pos files warns = .ok (files ++ dir) warns := by
  induction dir with
  | nil =>
    intro s pos fuel files warns hs _ hf
    match fuel, hf with
    | f + 1, _ =>
      have he := parseEntry_eof s pos (by simpa [pack] using hs)
      simp [unpackGo, he]
  | cons e rest ih =>
    intro s pos fuel files warns hs hv hf
    obtain ⟨hv1, hv2, hv3, hv4, hv5⟩ := hv e (List.mem_cons_self e rest)
    match fuel, hf with
    | f + 1, hf =>
      have hs' : s.drop pos = encodeEntry e.1 e.2 ++ pack rest := by
        simpa [pack] using hs
      have hp := parseEntry_encodeEntry s pos e.1 e.2 (pack rest) hs' hv1 hv2 hv3 hv4 hv5
      rw [unpackGo_store_step s pos f files warns _ hp rfl rfl]
      have hnext : s.drop (pos + e.1.length + 10 + e.2.length) = pack rest := by
        have h1 : pos + e.1.length + 10 + e.2.length = pos + (encodeEntry e.1 e.2).length := by
          rw [encodeEntry_length]
          omega
        rw [h1, ← List.drop_drop, hs', List.drop_left]
      rw [ih s _ f _ warns hnext (fun x hx => hv x (List.mem_cons_of_mem _ hx))
        (by simpa using Nat.lt_of_succ_lt_succ hf)]
      simp

/-! ## C1: store-only round trip -/

/-- C1 counterexample: the directory containing a single empty file with
the representable name "A" does not round-trip.  `pack` happily writes
the entry with `compressed_size = 0`, but `unpack` then fails the whole
operation, because `fread(buf, 0, 1, f)` returns 0 (not 1) and the
payload-read check treats that as a fatal read error.  No file is
reproduced and the operation reports failure. -/
theorem c1_empty_file_counterexample :
    vchar 65 = true ∧ unpack (pack [([65], [])]) = .err [] [] := by
  constructor
  · decide
  · decide

/-- C1 (amended): for every directory of files whose names the format
can represent (1..12 characters from the legal set) and whose contents
are nonempty and small enough for the `u32` size fields, unpacking the
packed archive succeeds, reproduces every file byte-identically under
its identical name, in order, and prints no warnings — the packer only
ever emits level-0 (store) entries. -/
theorem c1_store_round_trip (dir : List (List Nat × List Nat))
    (hv : ∀ e ∈ dir, validEntry e) : unpack (pack dir) = .ok dir [] := by
  have hlen := pack_length_ge dir
  have h := unpack_pack_go dir (pack dir) 0 ((pack dir).length + 1) [] []
    (by simp) hv (by omega)
  simpa [unpack] using h

/-- C1 witness: a concrete one-file directory round-trips. -/
theorem c1_store_round_trip_witness :
    unpack (pack [([65], [1])]) = .ok [([65], [1])] [] := by
  apply c1_store_round_trip
  intro e he
  simp only [List.mem_singleton] at he
  subst he
  refine ⟨by decide, by decide, by decide, by decide, by decide⟩

/-! ## C4: bounds of the decoders on untrusted data -/

/-- C4: the claim that every read and write of the RLE and windowed
decoders stays in bounds is false.  In the total embedding where
indexing returns `Option`, the out-of-bounds branch is reached: a
level-1 payload consisting of the single run flag `0x80` makes the RLE
decoder read payload index 1 with `compressed_size = 1`, and a level-2
payload consisting of the single flag `0x02` makes the windowed decoder
read the two token bytes at payload indices 1 and 2. -/
theorem c4_decoders_reach_out_of_bounds :
    rleDecode [128] 3 = .oob ∧ windowDecode 2 8 [2] = .oob := by
  constructor
  · rfl
  · rfl

/-! ## C7: RLE codec semantics -/

/-- C7: the level-1 decoder reads one flag byte `f` per group; if
`f > 127` it replicates the single next payload byte `f - 125` times
(count range 3..130), otherwise it copies the next `f + 1` payload
bytes verbatim (length range 1..128), repeating until the payload is
exhausted; and the payload `[0x02,'A','B','C',0x80,'X']` decodes to
`"ABCXXX"`. -/
theorem c7_rle_semantics :
    (∀ (payload out : List Nat) (usize fuel cp flag b : Nat),
      payload.get? cp = some flag → 127 < flag → flag ≤ 255 →
      payload.get? (cp + 1) = some b →
      out.length + (flag - 125) ≤ usize →
      3 ≤ flag - 125 ∧ flag - 125 ≤ 130 ∧
        rleGo payload usize (fuel + 1) cp out =
          rleGo payload usize fuel (cp + 2) (out ++ List.replicate (flag - 125) b)) ∧
    (∀ (payload out : List Nat) (usize fuel cp flag : Nat),
      payload.get? cp = some flag → flag ≤ 127 →
      cp + 1 + (flag + 1) ≤ payload.length →
      out.length + (flag + 1) ≤ usize →
      1 ≤ flag + 1 ∧ flag + 1 ≤ 128 ∧
        rleGo payload usize (fuel + 1) cp out =
          rleGo payload usize fuel (cp + 1 + (flag + 1))
            (out ++ (payload.drop (cp + 1)).take (flag + 1))) ∧
    rleDecode [2, 65, 66, 67, 128, 88] 6 = .ok [65, 66, 67, 88, 88, 88] := by
  refine ⟨?_, ?_, rfl⟩
  · intro payload out usize fuel cp flag b hflag h127 h255 hb hroom
    have hcp : cp < payload.length := by
      rcases Nat.lt_or_ge cp payload.length with h | h
      · exact h
      · rw [List.get?_eq_none.mpr h] at hflag
        exact absurd hflag (by simp)
    refine ⟨by omega, by omega, ?_⟩
    simp only [rleGo, hflag, hb]
    rw [if_pos hcp, if_pos h127, if_neg (Nat.not_lt.mpr hroom)]
  · intro payload out usize fuel cp flag hflag h127 hread hroom
    have hcp : cp < payload.length := by
      rcases Nat.lt_or_ge cp payload.length with h | h
      · exact h
      · rw [List.get?_eq_none.mpr h] at hflag
        exact absurd hflag (by simp)
    refine ⟨by omega, by omega, ?_⟩
    simp only [rleGo, hflag]
    rw [if_pos hcp, if_neg (Nat.not_lt.mpr h127), if_neg (Nat.not_lt.mpr hread),
      if_neg (Nat.not_lt.mpr hroom)]

/-- C7 witness: the run-group step at a concrete input, and the
concrete decode of `[0x02,'A','B','C',0x80,'X']`. -/
theorem c7_rle_semantics_witness :
    (3 ≤ 128 - 125 ∧ 128 - 125 ≤ 130 ∧
      rleGo [128, 88] 6 (1 + 1) 0 [] =
        rleGo [128, 88] 6 1 (0 + 2) ([] ++ List.replicate (128 - 125) 88)) ∧
    rleDecode [2, 65, 66, 67, 128, 88] 6 = .ok [65, 66, 67, 88, 88, 88] :=
  ⟨c7_rle_semantics.1 [128, 88] [] 6 1 0 128 88 rfl (by decide) (by decide) rfl (by decide),
   c7_rle_semantics.2.2⟩

/-! ## C9: the end-of-archive sentinel -/

/-- C9: the end-of-archive sentinel is recognised only when the 13-byte
filename read returns exactly one byte and that byte is `0x00`, i.e.
only when the zero byte is the final byte of the archive; a `0x00` in
filename position followed by at least one further byte is instead
validated as a filename and rejected, so `unpack` fails rather than
succeeds on any archive with data after the terminator. -/
theorem c9_sentinel_only_at_archive_end (s : List Nat) (pos fuel : Nat)
    (files : List (List Nat × List Nat)) (warns : List Warn) :
    (s.drop pos = [0] → unpackGo s (fuel + 1) pos files warns = .ok files warns) ∧
    ((s.drop pos).head? = some 0 → 2 ≤ (s.drop pos).length →
      unpackGo s (fuel + 1) pos files warns = .err files warns) := by
  constructor
  · intro hs
    simp [unpackGo, parseEntry_eof s pos hs]
  · intro h0 h2
    match hd : s.drop pos with
    | [] => rw [hd] at h2; simp at h2
    | [x] => rw [hd] at h2; simp at h2
    | x :: y :: t =>
      rw [hd] at h0
      simp only [List.head?_cons, Option.some.injEq] at h0
      subst h0
      have hp : parseEntry s pos = .fail := by
        simp [parseEntry, hd, List.take_succ_cons, vGo, vchar]
      simp [unpackGo, hp]

/-- C9 witness: the archive `[0x00]` unpacks successfully; the archive
`[0x00, 0x00]` fails. -/
theorem c9_sentinel_witness :
    unpackGo [0] (1 + 1) 0 [] [] = .ok [] [] ∧
    unpackGo [0, 0] (1 + 1) 0 [] [] = .err [] [] :=
  ⟨(c9_sentinel_only_at_archive_end [0] 0 1 [] []).1 rfl,
   (c9_sentinel_only_at_archive_end [0, 0] 0 1 [] []).2 rfl (by decide)⟩

theorem wRun_ok_cp (maxOff usize : Nat) :
    ∀ (n off : Nat) (st : WState) (off' : Nat) (st' : WState),
      wRun maxOff usize n off st = .ok off' st' → st'.cp = st.cp := by
  intro n
  induction n with
  | zero =>
    intro off st off' st' h
    simp only [wRun] at h
    cases h
    rfl
  | succ m ih =>
    intro off st off' st' h
    simp only [wRun] at h
    split at h
    · simp at h
    · split at h
      · simp at h
      · split at h
        · simp at h
        · split at h
          · simp at h
          · have h2 := ih _ _ _ _ h
            exact h2

theorem wBits_ok_cp (maxOff maxRun usize ob : Nat) (payload : List Nat) (flag : Nat) :
    ∀ (bits : List Nat) (st st' : WState),
      wBits maxOff maxRun usize ob payload flag bits st = .ok st' → st.cp ≤ st'.cp := by
  intro bits
  induction bits with
  | nil =>
    intro st st' h
    simp only [wBits] at h
    cases h
    exact Nat.le_refl _
  | cons b bs ih =>
    intro st st' h
    simp only [wBits] at h
    split at h
    · split at h
      · simp at h
      · split at h
        · simp at h
        · split at h
          · simp at h
          · split at h
            · cases h
              exact Nat.le_succ _
            · have h3 := ih _ _ h
              exact Nat.le_trans (Nat.le_succ _) h3
    · split at h
      · split at h
        · simp at h
        · split at h
          · simp at h
          · split at h
            · simp at h
            · simp at h
            · rename_i off st₂ hrun
              have hcp2 := wRun_ok_cp maxOff usize _ _ _ _ _ hrun
              simp only [] at hcp2
              split at h
              · cases h
                omega
              · have h3 := ih _ _ h
                omega
      · simp at h

theorem wBits_ne_fuel (maxOff maxRun usize ob : Nat) (payload : List Nat) (flag : Nat) :
    ∀ (bits : List Nat) (st : WState),
      wBits maxOff maxRun usize ob payload flag bits st ≠ .outOfFuel := by
  intro bits
  induction bits with
  | nil =>
    intro st
    simp [wBits]
  | cons b bs ih =>
    intro st
    simp only [wBits]
    split
    · split
      · simp
      · split
        · simp
        · split
          · simp
          · split
            · simp
            · exact ih _
    · split
      · split
        · simp
        · split
          · simp
          · split
            · simp
            · simp
            · split
              · simp
              · exact ih _
      · simp

/-! ## C10: termination of the decode loops -/

/-- C10: both decode loops terminate on every finite payload, because
each outer-loop iteration consumes at least the flag byte, so the
compressed-data cursor strictly increases; any fuel exceeding the
remaining payload length is never exhausted. -/
theorem c10_decode_loops_terminate :
    (∀ (payload out : List Nat) (usize cp fuel : Nat),
      payload.length - cp < fuel → rleGo payload usize fuel cp out ≠ .outOfFuel) ∧
    (∀ (maxOff maxRun usize ob : Nat) (payload : List Nat) (st : WState) (fuel : Nat),
      payload.length - st.cp < fuel →
      wOuter maxOff maxRun usize ob payload fuel st ≠ .outOfFuel) := by
  constructor
  · intro payload out usize cp fuel
    induction fuel generalizing cp out with
    | zero => omega
    | succ f ih =>
      intro h
      simp only [rleGo]
      split
      · split
        · simp
        · split
          · split
            · simp
            · split
              · simp
              · exact ih _ _ (by omega)
          · split
            · simp
            · split
              · simp
              · exact ih _ _ (by omega)
      · simp
  · intro maxOff maxRun usize ob payload st fuel
    induction fuel generalizing st with
    | zero => omega
    | succ f ih =>
      intro h
      simp only [wOuter]
      split
      · rename_i hlt
        rcases hg : payload.get? st.cp with _ | flag
        · simp [hg]
        · rcases hb : wBits maxOff maxRun usize ob payload flag (List.range 8)
              ⟨st.out, st.win, st.so, st.cp + 1⟩ with st₁ | ⟨st₁, w⟩ | _ | _
          · have hm := wBits_ok_cp maxOff maxRun usize ob payload flag _ _ _ hb
            simp only [] at hm
            simp only [hg, hb]
            exact ih st₁ (by omega)
          · simp [hg, hb]
          · simp [hg, hb]
          · exact absurd hb (wBits_ne_fuel maxOff maxRun usize ob payload flag _ _)
      · simp

/-- C10 witness: concrete runs of both loops with fuel exceeding the
payload length do not exhaust it. -/
theorem c10_decode_loops_terminate_witness :
    rleGo [2, 65, 66, 67, 128, 88] 6 7 0 [] ≠ .outOfFuel ∧
    wOuter 4095 18 8 4 [255, 1, 2, 3, 4, 5, 6, 7, 8] 10
      ⟨[], List.replicate 4095 0, 0, 0⟩ ≠ .outOfFuel :=
  ⟨c10_decode_loops_terminate.1 [2, 65, 66, 67, 128, 88] [] 6 0 7 (by decide),
   c10_decode_loops_terminate.2 4095 18 8 4 [255, 1, 2, 3, 4, 5, 6, 7, 8]
     ⟨[], List.replicate 4095 0, 0, 0⟩ 10 (by decide)⟩

/-! ## C8: filename validation -/

theorem vGo_false_iff (l : List Nat) (hne : l ≠ []) :
    vGo l false = true ↔
      ∃ j, j < l.length ∧ l.get? j = some 0 ∧
        ∀ i < j, ∃ c, l.get? i = some c ∧ vchar c = true := by
  induction l with
  | nil => simp at hne
  | cons a t ih =>
    cases t with
    | nil =>
      constructor
      · intro h
        have ha : a = 0 := by simpa [vGo] using h
        exact ⟨0, by simp, by simp [ha], fun i hi => absurd hi (by omega)⟩
      · rintro ⟨j, hj, hj0, -⟩
        simp only [List.length_cons, List.length_nil] at hj
        have hj' : j = 0 := by omega
        subst hj'
        simp only [List.get?_cons_zero, Option.some.injEq] at hj0
        simp [vGo, hj0]
    | cons b t' =>
      by_cases ha : a = 0
      · subst ha
        constructor
        · intro _
          exact ⟨0, by simp, by simp, fun i hi => absurd hi (by omega)⟩
        · intro _
          simp [vGo]
      · by_cases hv : vchar a = true
        · have hstep : vGo (a :: b :: t') false = vGo (b :: t') false := by
            simp [vGo, ha, hv]
          rw [hstep, ih (by simp)]
          constructor
          · rintro ⟨j, hj, hj0, hpre⟩
            refine ⟨j + 1, by simpa using hj, by simpa using hj0, ?_⟩
            intro i hi
            cases i with
            | zero => exact ⟨a, by simp, hv⟩
            | succ i' =>
              obtain ⟨c, hc1, hc2⟩ := hpre i' (by omega)
              exact ⟨c, by simpa using hc1, hc2⟩
          · rintro ⟨j, hj, hj0, hpre⟩
            cases j with
            | zero =>
              simp only [List.get?_cons_zero, Option.some.injEq] at hj0
              exact absurd hj0 ha
            | succ j' =>
              refine ⟨j', by simpa using hj, by simpa using hj0, ?_⟩
              intro i hi
              obtain ⟨c, hc1, hc2⟩ := hpre (i + 1) (by omega)
              exact ⟨c, by simpa using hc1, hc2⟩
        · constructor
          · intro h
            simp [vGo, ha, hv] at h
          · rintro ⟨j, hj, hj0, hpre⟩
            cases j with
            | zero =>
              simp only [List.get?_cons_zero, Option.some.injEq] at hj0
              exact absurd hj0 ha
            | succ j' =>
              obtain ⟨c, hc1, hc2⟩ := hpre 0 (by omega)
              simp only [List.get?_cons_zero, Option.some.injEq] at hc1
              subst hc1
              exact absurd hc2 hv

/-- C8 counterexample: the claim's legal set includes the range
`'#'..')'`, but the code's first range check starts at 36 = `'$'`, so
`'#'` = 35 is rejected; a window holding the name `"#"` with its
terminator fails validation although the claim says it must be
accepted.  The claim's "fails exactly when" also misses the empty name:
a window whose first byte is the terminator (with further bytes after
it) has no byte before the terminator and a terminator inside the
window, yet the validator fails. -/
theorem c8_filename_validation_counterexample :
    vchar 35 = false ∧
    vGo ([35, 0] ++ List.replicate 11 0) true = false ∧
    vGo ([0, 65] ++ List.replicate 11 0) true = false := by
  refine ⟨by decide, by decide, by decide⟩

/-- C8 (amended): for every nonempty read window, the validator accepts
exactly when some position `j ≥ 1` inside the window holds the `0x00`
terminator and every byte before it is in the code's legal set
(33, 36..41, 45, 46, 48..57, 64..90, 94..123, 125, 126 — i.e.
`'$'..')'` rather than the claim's `'#'..')'`); equivalently it fails
exactly when zero bytes were read (handled by the caller), the window
has no terminator among the bytes read (so a 12-character unterminated
name in the 13-byte window is invalid), a byte before the terminator is
outside that set, or the name is empty.  A name of 1..12 legal
characters followed by the terminator is accepted. -/
theorem c8_filename_validation (w : List Nat) (h1 : 1 ≤ w.length) :
    vGo w true = true ↔
      ∃ j, 1 ≤ j ∧ j < w.length ∧ w.get? j = some 0 ∧
        ∀ i < j, ∃ c, w.get? i = some c ∧ vchar c = true := by
  match w, h1 with
  | a :: t, _ =>
    cases t with
    | nil =>
      constructor
      · intro h
        simp [vGo] at h
      · rintro ⟨j, hj1, hj2, -, -⟩
        simp only [List.length_cons, List.length_nil] at hj2
        omega
    | cons b t' =>
      by_cases hv : vchar a = true
      · have hstep : vGo (a :: b :: t') true = vGo (b :: t') false := by
          simp [vGo, hv]
        rw [hstep, vGo_false_iff _ (by simp)]
        constructor
        · rintro ⟨j, hj, hj0, hpre⟩
          refine ⟨j + 1, by omega, by simpa using hj, by simpa using hj0, ?_⟩
          intro i hi
          cases i with
          | zero => exact ⟨a, by simp, hv⟩
          | succ i' =>
            obtain ⟨c, hc1, hc2⟩ := hpre i' (by omega)
            exact ⟨c, by simpa using hc1, hc2⟩
        · rintro ⟨j, hj1, hj2, hj0, hpre⟩
          cases j with
          | zero => omega
          | succ j' =>
            refine ⟨j', by simpa using hj2, by simpa using hj0, ?_⟩
            intro i hi
            obtain ⟨c, hc1, hc2⟩ := hpre (i + 1) (by omega)
            exact ⟨c, by simpa using hc1, hc2⟩
      · constructor
        · intro h
          simp [vGo, hv] at h
        · rintro ⟨j, hj1, hj2, hj0, hpre⟩
          obtain ⟨c, hc1, hc2⟩ := hpre 0 (by omega)
          simp only [List.get?_cons_zero, Option.some.injEq] at hc1
          subst hc1
          exact absurd hc2 hv

/-- C8 witness: a 12-character legal name followed by the terminator is
accepted, through the characterization at that window. -/
theorem c8_filename_validation_witness :
    (vGo (List.replicate 12 65 ++ [0]) true = true ↔
      ∃ j, 1 ≤ j ∧ j < (List.replicate 12 65 ++ [0]).length ∧
        (List.replicate 12 65 ++ [0]).get? j = some 0 ∧
        ∀ i < j, ∃ c, (List.replicate 12 65 ++ [0]).get? i = some c ∧ vchar c = true) ∧
    vGo (List.replicate 12 65 ++ [0]) true = true :=
  ⟨c8_filename_validation _ (by decide), by decide⟩


/-! ## C5: the window codec literal-only path -/

set_option maxRecDepth 4000 in
/-- C5 counterexample: a level-2 entry whose payload is the flag byte
`0x00` followed by 8 bytes does not decode those bytes as literals — a
zero flag bit means a back-reference, so the decoder consumes payload
bytes 1 and 2 as a token (offset 512, run length 2 here), fails the
`offset < uncompressed_pointer` check against the empty output, and
aborts the entry with an invalid-offset warning, producing no output
bytes at all. -/
theorem c5_flag_zero_counterexample :
    windowDecode 2 8 [0, 1, 2, 3, 4, 5, 6, 7, 8] =
      .corrupt ⟨[], List.replicate 4095 0, 0, 3⟩ .invalidOffset := by
  rfl

set_option maxRecDepth 4000 in
/-- C5 (amended): a level-2 entry whose payload is one flag byte `0xFF`
(eight set bits, i.e. eight literal tokens — flag bit 1, not 0, marks a
literal) followed by 8 literal bytes decodes to exactly those 8 bytes,
and the sliding window afterwards holds those same 8 bytes in its first
8 cells, its write cursor at 8. -/
theorem c5_literal_only_path (b0 b1 b2 b3 b4 b5 b6 b7 : Nat) :
    windowDecode 2 8 [255, b0, b1, b2, b3, b4, b5, b6, b7] =
      .ok ⟨[b0, b1, b2, b3, b4, b5, b6, b7],
        b0 :: b1 :: b2 :: b3 :: b4 :: b5 :: b6 :: b7 :: List.replicate 4087 0, 8, 9⟩ := by
  rfl

/-- C5 witness: the literal-only path at concrete bytes. -/
theorem c5_literal_only_path_witness :
    windowDecode 2 8 [255, 10, 20, 30, 40, 50, 60, 70, 80] =
      .ok ⟨[10, 20, 30, 40, 50, 60, 70, 80],
        10 :: 20 :: 30 :: 40 :: 50 :: 60 :: 70 :: 80 :: List.replicate 4087 0, 8, 9⟩ :=
  c5_literal_only_path 10 20 30 40 50 60 70 80

/-! ## C6: unsupported compression levels -/

/-- Inverting a successful header parse: the resume position is the
payload start (entry start + name record of `name.length + 1` bytes +
9 header bytes) plus the declared `compressed_size`, and the payload
buffer holds exactly `compressed_size` bytes. -/
theorem parseEntry_entry_inv (s : List Nat) (pos : Nat) (e : Entry)
    (hp : parseEntry s pos = .entry e) :
    e.next = pos + e.name.length + 10 + e.csize ∧ e.payload.length = e.csize := by
  simp only [parseEntry] at hp
  split at hp
  · simp at hp
  · split at hp
    · simp at hp
    · split at hp
      · simp at hp
      · split at hp
        · simp at hp
        · split at hp
          · simp at hp
          · split at hp
            · simp at hp
            · split at hp
              · simp at hp
              · rename_i hsz
                cases hp
                simp only [not_or, Decidable.not_not] at hsz
                exact ⟨rfl, hsz.2⟩

/-- C6 counterexample: the level byte 200 makes the 8-bit unsigned
computation `offset_bits = 6 - level` equal 62, which exceeds 8, so per
the claim the entry must be skipped with a warning and unpacking must
continue; but `compression_level` is read into a plain (signed) `char`,
so the byte 200 is negative, matches none of `== 0`, `== 1`, `> 1`, and
the final `else` branch fails the whole unpack operation on this
otherwise well-formed one-entry archive. -/
theorem c6_unsupported_level_counterexample :
    8 < offsetBits 200 ∧
    unpack [65, 0, 1, 0, 0, 0, 1, 0, 0, 0, 200, 9, 0] = .err [] [] := by
  constructor
  · decide
  · rfl

/-- C6 (amended): for a parsed entry whose level byte is 7..127
(positive as a signed `char`), the 8-bit unsigned `offset_bits = 6 -
level` exceeds 8 and `unpack` skips the entry's payload with a warning,
writing no file, and continues with the next entry; but for a level
byte 128..255 (negative as a signed `char`) the dispatch falls into the
final `else` and the whole unpack operation fails. -/
theorem c6_unsupported_level_dispatch (s : List Nat) (pos fuel : Nat)
    (files : List (List Nat × List Nat)) (warns : List Warn) (e : Entry)
    (hp : parseEntry s pos = .entry e) :
    (7 ≤ e.level → e.level ≤ 127 →
      8 < offsetBits e.level ∧
      unpackGo s (fuel + 1) pos files warns =
        unpackGo s fuel e.next files (warns ++ [Warn.unsupportedLevel])) ∧
    (128 ≤ e.level →
      unpackGo s (fuel + 1) pos files warns = .err files warns) := by
  constructor
  · intro h7 h127
    have hob : 8 < offsetBits e.level := by
      simp only [offsetBits]
      omega
    refine ⟨hob, ?_⟩
    simp [unpackGo, hp, show e.level ≠ 0 by omega, show e.level ≠ 1 by omega,
      show 2 ≤ e.level by omega, h127, hob]
  · intro h128
    simp [unpackGo, hp, show e.level ≠ 0 by omega, show e.level ≠ 1 by omega,
      show ¬ e.level ≤ 127 by omega]

/-- C6 witness: a one-entry archive with level byte 7 is skipped with a
warning and unpacking then succeeds at the sentinel; the same archive
with level byte 200 fails as a whole. -/
theorem c6_unsupported_level_witness :
    unpack [65, 0, 1, 0, 0, 0, 1, 0, 0, 0, 7, 9, 0] = .ok [] [Warn.unsupportedLevel] ∧
    unpack [65, 0, 1, 0, 0, 0, 1, 0, 0, 0, 200, 9, 0] = .err [] [] := by
  constructor
  · show unpackGo [65, 0, 1, 0, 0, 0, 1, 0, 0, 0, 7, 9, 0] (13 + 1) 0 [] [] = _
    rw [((c6_unsupported_level_dispatch [65, 0, 1, 0, 0, 0, 1, 0, 0, 0, 7, 9, 0] 0 13 [] []
      ⟨[65], 1, 1, 7, [9], 12⟩ rfl).1 (by decide) (by decide)).2]
    rfl
  · exact (c6_unsupported_level_dispatch [65, 0, 1, 0, 0, 0, 1, 0, 0, 0, 200, 9, 0] 0 13 [] []
      ⟨[65], 1, 1, 200, [9], 12⟩ rfl).2 (by decide)

/-! ## C3: corrupt windowed entries are contained -/

/-- C3: when a level ≥ 2 entry's windowed decode aborts — because the
computed token offset is negative, or the run length exceeds
`max_run_length`, or before emitting a byte the running offset exceeds
`max_offset` or is not strictly below the number of output bytes so far
(these are exactly the `corrupt` exits of the decoder) — only that
entry's decode is aborted: the warning is recorded, the partial output
is still written (padded to `uncompressed_size` by the uninitialised
buffer tail), the stream resynchronizes at the payload start (entry
start + name record + 9 header bytes) plus the declared
`compressed_size`, and unpacking continues with the next entry. -/
theorem c3_corrupt_entry_containment (s : List Nat) (pos fuel : Nat)
    (files : List (List Nat × List Nat)) (warns : List Warn) (e : Entry)
    (st : WState) (w : Warn)
    (hp : parseEntry s pos = .entry e)
    (h2 : 2 ≤ e.level) (h127 : e.level ≤ 127) (hob : offsetBits e.level ≤ 8)
    (hdec : windowDecode e.level e.usize e.payload = .corrupt st w) :
    e.next = pos + e.name.length + 10 + e.csize ∧
    unpackGo s (fuel + 1) pos files warns =
      unpackGo s fuel e.next
        (files ++ [(e.name, st.out ++ List.replicate (e.usize - st.out.length) 0)])
        ((warns ++ [w]) ++
          (if st.out.length ≠ e.usize ∨ st.cp ≠ e.csize then [Warn.entrySizeMismatch]
           else [])) := by
  refine ⟨(parseEntry_entry_inv s pos e hp).1, ?_⟩
  simp [unpackGo, hp, show e.level ≠ 0 by omega, show e.level ≠ 1 by omega, h2, h127,
    Nat.not_lt.mpr hob, hdec]

set_option maxRecDepth 4000 in
/-- C3 witness: a two-entry archive whose first entry is a level-2
payload that aborts immediately (token offset −1) and whose second is a
stored file; the first entry yields its warning and padded output, and
the second entry is still extracted. -/
theorem c3_corrupt_entry_containment_witness :
    unpack [65, 0, 3, 0, 0, 0, 1, 0, 0, 0, 2, 0, 0, 0,
            66, 0, 1, 0, 0, 0, 1, 0, 0, 0, 0, 7, 0] =
      .ok [([65], [0]), ([66], [7])] [Warn.invalidOffset, Warn.entrySizeMismatch] := by
  show unpackGo [65, 0, 3, 0, 0, 0, 1, 0, 0, 0, 2, 0, 0, 0,
    66, 0, 1, 0, 0, 0, 1, 0, 0, 0, 0, 7, 0] (27 + 1) 0 [] [] = _
  rw [(c3_corrupt_entry_containment [65, 0, 3, 0, 0, 0, 1, 0, 0, 0, 2, 0, 0, 0,
    66, 0, 1, 0, 0, 0, 1, 0, 0, 0, 0, 7, 0] 0 27 [] []
    ⟨[65], 3, 1, 2, [0, 0, 0], 14⟩ ⟨[], List.replicate 4095 0, 0, 3⟩ .invalidOffset
    rfl (by decide) (by decide) (by decide) rfl).2]
  rfl

/-! ## C2: back-reference token decoding -/

theorem ite_bit_int (b i : Nat) (x w : Int) :
    (if bit b i = 1 then x + w else x) = x + (bit b i : Int) * w := by
  unfold bit
  rcases Nat.mod_two_eq_zero_or_one (b / 2 ^ i) with h | h <;> simp [h]

theorem ite_bit_nat (b i : Nat) (x w : Nat) :
    (if bit b i = 1 then x + w else x) = x + bit b i * w := by
  unfold bit
  rcases Nat.mod_two_eq_zero_or_one (b / 2 ^ i) with h | h <;> simp [h]

set_option maxHeartbeats 1000000 in
/-- C2: for every supported level 2..6, `offset_bits = 6 - level` (the
8-bit unsigned computation agrees with the plain subtraction), and the
token loops — `offset` from −1 accumulating all 8 bits of the first
byte with weights `1<<0..1<<7` and the low `offset_bits` bits of the
second byte continuing from `1<<8`, `run_length` from 2 accumulating
the remaining `8 - offset_bits` high bits with the weight counter
restarting at `1<<0` at bit position `offset_bits` — amount to
`offset = b1 + 256·(b2 mod 2^offset_bits) − 1` and
`run_length = 2 + b2 div 2^offset_bits`; the validation limits are
`max_run_length = 2^run_length_bits + 2` and
`max_offset = 2^(offset_bits+8) − 1`. -/
theorem c2_token_bit_weights (level b1 b2 : Nat) (h2 : 2 ≤ level) (h6 : level ≤ 6)
    (hb1 : b1 < 256) (hb2 : b2 < 256) :
    offsetBits level = 6 - level ∧
    decodeToken (offsetBits level) b1 b2 =
      ((b1 : Int) + 256 * ((b2 % 2 ^ (6 - level) : Nat) : Int) - 1,
       2 + b2 / 2 ^ (6 - level)) ∧
    maxRunLength (offsetBits level) = 2 ^ (8 - (6 - level)) + 2 ∧
    maxOffset (offsetBits level) = 2 ^ ((6 - level) + 8) - 1 := by
  have hob : offsetBits level = 6 - level := by
    simp only [offsetBits]
    omega
  refine ⟨hob, ?_, by rw [hob, maxRunLength], by rw [hob, maxOffset]⟩
  rw [hob]
  interval_cases level <;>
  · norm_num
    simp only [decodeToken, show List.range 8 = [0, 1, 2, 3, 4, 5, 6, 7] from rfl, List.foldl]
    simp only [Nat.reduceLeDiff, not_true, not_false_iff, and_true, and_false,
      if_true, if_false, reduceIte]
    simp only [ite_bit_int, ite_bit_nat]
    rw [Prod.mk.injEq]
    constructor
    · norm_num [bit]
      omega
    · norm_num [bit]
      omega

/-- C2 witness: the token `(0x12, 0x34)` at level 2
(`offset_bits = 4`): offset `18 + 256·4 − 1 = 1041`, run length
`2 + 3 = 5`. -/
theorem c2_token_bit_weights_witness :
    offsetBits 2 = 6 - 2 ∧
    decodeToken (offsetBits 2) 18 52 =
      ((18 : Int) + 256 * ((52 % 2 ^ (6 - 2) : Nat) : Int) - 1, 2 + 52 / 2 ^ (6 - 2)) ∧
    maxRunLength (offsetBits 2) = 2 ^ (8 - (6 - 2)) + 2 ∧
    maxOffset (offsetBits 2) = 2 ^ ((6 - 2) + 8) - 1 :=
  c2_token_bit_weights 2 18 52 (by decide) (by decide) (by decide) (by decide)
